import Mathlib

/-!
Verification of the `money` Go package (Ceesaxp/money, file `money.go`).

The package stores monetary amounts as `int64` smallest-currency units and
converts decimal `float64` amounts via a rounding engine.  All floating-point
arithmetic in the source is IEEE-754 binary64; here it is embedded exactly:
a finite double is a dyadic rational `m * 2^e` (structure `FP`), and every
arithmetic operation rounds its exact rational result to 53 significant bits
with round-to-nearest, ties-to-even, exactly as the hardware does.  The model
uses an unbounded exponent range (no overflow to infinity, no subnormal
precision loss); every value appearing in the claims lies far inside the
normal range, where this model agrees bit-for-bit with binary64.

Machine integers (`int64`) are embedded as `ℤ` with two's-complement
wrap-around (`wrap64`) applied exactly where Go arithmetic can overflow, and
Go's truncating division and modulus are `Int.tdiv` / `Int.tmod`.
Conversion of an out-of-range or non-finite float to `int64` is
implementation-dependent in Go; the model fixes the amd64 behaviour, which
yields `-2^63`.

The currency registry (`Currencies`, `Currency`, `FormatOptions` zero values)
lives in a repository file that is not part of the sources at hand; it is
modelled from the spec where marked.
-/

namespace money

/-! ### Bit length, kernel-computable -/

/-- Fuel-driven binary length: `bitLenF fuel n` is the number of binary digits
of `n`, provided `n < 2 ^ fuel`. -/
def bitLenF : ℕ → ℕ → ℕ
  | 0, _ => 0
  | fuel + 1, n => if n = 0 then 0 else bitLenF fuel (n / 2) + 1

/-- Number of binary digits of `n` (`0` for `0`); the fuel `n + 1` always
suffices since `n < 2 ^ (n + 1)`. -/
def bitLen (n : ℕ) : ℕ := bitLenF (n + 1) n

/-! ### Round-to-nearest-even on exact fractions -/

/-- Round the fraction `a / d` (with `d ≥ 1`) to the nearest natural number,
resolving exact halves toward the even neighbour. -/
def rnePos (a d : ℕ) : ℕ :=
  if 2 * (a % d) < d then a / d
  else if d < 2 * (a % d) then a / d + 1
  else if (a / d) % 2 = 0 then a / d else a / d + 1

/-! ### Finite binary64 values as dyadic rationals -/

/-- A finite IEEE-754 binary64 value, represented exactly as `m * 2^e`. -/
structure FP where
  m : ℤ
  e : ℤ
deriving DecidableEq, Repr

/-- Renormalise the exact dyadic `m * 2^e` to at most 53 significant bits,
rounding to nearest with ties to even: the result of a binary64 operation
whose exact value is `m * 2^e`. -/
def fpNorm (m : ℤ) (e : ℤ) : FP :=
  if m = 0 then ⟨0, 0⟩
  else
    let a := m.natAbs
    let b := bitLen a
    if b ≤ 53 then ⟨m, e⟩
    else
      let s := b - 53
      let m2 := (rnePos a (2 ^ s) : ℤ)
      ⟨if m < 0 then -m2 else m2, e + s⟩

/-- Largest `k` with `2^k ≤ a / d`, for `a, d ≥ 1`: candidate from the bit
lengths, corrected downward by one exact comparison. -/
def ratExp (a d : ℕ) : ℤ :=
  let k0 : ℤ := (bitLen a : ℤ) - (bitLen d : ℤ)
  if d * 2 ^ k0.toNat ≤ a * 2 ^ (-k0).toNat then k0 else k0 - 1

/-- Round the positive fraction `a / d` (`a, d ≥ 1`) to binary64: scale into
`[2^52, 2^53)` and round the mantissa to nearest, ties to even. -/
def fpOfRatPos (a d : ℕ) : FP :=
  let k := ratExp a d
  let s : ℤ := 52 - k
  ⟨(rnePos (a * 2 ^ s.toNat) (d * 2 ^ (-s).toNat) : ℤ), k - 52⟩

/-- The binary64 value nearest to `n / d` (`d ≥ 1`): the result of converting
the exact rational `n / d` to a double (e.g. by `strconv.ParseFloat` on a
decimal literal). -/
def fpOfRat (n : ℤ) (d : ℕ) : FP :=
  if n = 0 then ⟨0, 0⟩
  else if n < 0 then
    let f := fpOfRatPos n.natAbs d
    ⟨-f.m, f.e⟩
  else fpOfRatPos n.natAbs d

/-- Go conversion `float64(a)` of an integer: exact for `|a| ≤ 2^53`, else
rounded to nearest even. -/
def i2f (a : ℤ) : FP := fpOfRat a 1

/-- binary64 multiplication: round the exact product. -/
def fmul (x y : FP) : FP := fpNorm (x.m * y.m) (x.e + y.e)

/-- binary64 addition: round the exact sum. -/
def fadd (x y : FP) : FP :=
  let e := min x.e y.e
  fpNorm (x.m * 2 ^ (x.e - e).toNat + y.m * 2 ^ (y.e - e).toNat) e

/-- binary64 subtraction: round the exact difference. -/
def fsub (x y : FP) : FP := fadd x ⟨-y.m, y.e⟩

/-- Truncation of a finite double toward zero, as an unbounded integer
(the mathematical value of Go's `int64(x)` before range clamping). -/
def truncFP (f : FP) : ℤ := Int.tdiv (f.m * 2 ^ f.e.toNat) (2 ^ (-f.e).toNat)

/-- `math.Floor`, exact on finite doubles. -/
def floorFP (f : FP) : ℤ := Int.fdiv (f.m * 2 ^ f.e.toNat) (2 ^ (-f.e).toNat)

/-- `math.Ceil`, exact on finite doubles. -/
def ceilFP (f : FP) : ℤ := -Int.fdiv (-(f.m * 2 ^ f.e.toNat)) (2 ^ (-f.e).toNat)

/-- `⌊x + 1/2⌋` for the nonnegative fraction `x = a / d`. -/
def awayPos (a d : ℕ) : ℕ := (2 * a + d) / (2 * d)

/-- `math.Round`: nearest integer, halves away from zero; exact on finite
doubles. -/
def roundAwayFP (f : FP) : ℤ :=
  let a := f.m.natAbs * 2 ^ f.e.toNat
  let d := 2 ^ (-f.e).toNat
  if f.m < 0 then -(awayPos a d : ℤ) else (awayPos a d : ℤ)

/-- The fractional part returned by `math.Modf`: `x - trunc x`, which is
always exactly representable, same sign as `x`. -/
def fracFP (f : FP) : FP :=
  ⟨f.m * 2 ^ f.e.toNat - truncFP f * 2 ^ (-f.e).toNat, -((-f.e).toNat : ℤ)⟩

/-- Does `math.Abs` of this finite double equal the literal `0.5`? -/
def absEqHalf (f : FP) : Bool := 2 * f.m.natAbs * 2 ^ f.e.toNat = 2 ^ (-f.e).toNat

/-- Go conversion of an integer-valued float to `int64`: the value itself if
it fits, otherwise the amd64 result `-2^63` (implementation-dependent per the
Go spec). -/
def clampInt64 (t : ℤ) : ℤ :=
  if -(2 ^ 63) ≤ t ∧ t < 2 ^ 63 then t else -(2 ^ 63)

/-- Go `int64(x)` for a finite double `x`: truncate, then clamp. -/
def goInt64ofF (f : FP) : ℤ := clampInt64 (truncFP f)

/-- `math.Pow10(s)`: exactly `10^s` for every scale that can occur here
(exact in binary64 up to `10^22`). -/
def pow10F (s : ℕ) : FP := fpOfRat (10 ^ s) 1

/-! ### The rounding engine (`money.go`, `round`) -/

/-- The `RoundingMode` enumeration of `money.go`. -/
inductive RoundingMode where
  | RoundHalfUp
  | RoundHalfDown
  | RoundUp
  | RoundDown
  | RoundHalfEven
deriving DecidableEq, Repr

/-- `round(amount float64, scale int, mode RoundingMode) int64` of
`money.go`: scales `amount` by `math.Pow10(scale)` in binary64 and applies
the selected rounding before the `int64` conversion.  The Go `default`
branch is unreachable because the Lean enumeration is closed. -/
def round (amount : FP) (scale : ℕ) (mode : RoundingMode) : ℤ :=
  let scaled := fmul amount (pow10F scale)
  match mode with
  | .RoundHalfUp => clampInt64 (roundAwayFP scaled)
  | .RoundHalfDown => clampInt64 (truncFP (fsub (fadd scaled ⟨1, -1⟩) (fpOfRat 1 100000)))
  | .RoundUp => clampInt64 (ceilFP scaled)
  | .RoundDown => clampInt64 (floorFP scaled)
  | .RoundHalfEven =>
    if absEqHalf (fracFP scaled) then
      if Int.tmod (goInt64ofF scaled) 2 = 0 then clampInt64 (floorFP scaled)
      else clampInt64 (ceilFP scaled)
    else clampInt64 (roundAwayFP scaled)

/-! ### Data model -/

/-- The `Money` struct: `amount` in smallest units (`int64`), ISO currency
code, decimal scale, cached divisor. -/
structure Money where
  amount : ℤ
  currency : String
  scale : ℕ
  divisor : ℤ
deriving DecidableEq, Repr

/-- The `FormatOptions` struct; Go zero values are empty strings and
`false`. -/
structure FormatOptions where
  Symbol : String := ""
  DecimalSep : String := ""
  ThousandsSep : String := ""
  SymbolFirst : Bool := false
  ShowCurrency : Bool := false
  SpaceBetween : Bool := false
deriving DecidableEq, Repr

/-- The `Currency` registry entry: code, scale and default display format. -/
structure Currency where
  Code : String
  Scale : ℕ
  DefaultFormat : FormatOptions
deriving DecidableEq, Repr

/-- The registry entry for USD, as exercised by the repository's tests:
scale 2, default format with symbol `$`, decimal `.`, thousands `,`. -/
def usdCurrency : Currency := ⟨"USD", 2, { Symbol := "$", DecimalSep := ".", ThousandsSep := "," }⟩

/-- Modelled from the spec: the Currency Registry (`Currencies`), an external
static mapping from currency code to scale and default format, defined in a
repository file outside the sources at hand.  The spec fixes USD at scale 2
with default format symbol `$`, decimal separator `.`, thousands separator
`,`, EUR as a distinct registered currency, and JPY at scale 0. -/
def Currencies : String → Option Currency
  | "USD" => some usdCurrency
  | "EUR" => some ⟨"EUR", 2, { Symbol := "€", DecimalSep := ",", ThousandsSep := "." }⟩
  | "JPY" => some ⟨"JPY", 0, { Symbol := "¥" }⟩
  | _ => none

/-- The error values of `money.go`, as a closed enumeration compared by
kind. -/
inductive Err where
  | invalidCurrency
  | invalidAmount
  | invalidRoundingMode
  | invalidFactor
  | invalidDivisor
  | invalidSplitParts
  | cannotDealWithDifferentCurrencies
  | parseAmount
deriving DecidableEq, Repr

/-- Two's-complement wrap of Go `int64` arithmetic. -/
def wrap64 (z : ℤ) : ℤ := (z + 2 ^ 63) % 2 ^ 64 - 2 ^ 63

/-- `strings.ToUpper`, ASCII-faithful. -/
def toUpperStr (s : String) : String := ⟨s.data.map Char.toUpper⟩

/-! ### Constructors and arithmetic (`money.go`) -/

/-- `New(amount float64, currencyCode string, mode RoundingMode)`: the
NaN/infinity guard is passed by every finite `amount` (`FP` holds exactly
the finite doubles, so the guard is vacuous here); the code is upper-cased
and looked up, and the smallest-unit amount is computed as
`round(amount*math.Pow10(scale), scale, mode)` — the argument is
pre-multiplied by `10^scale` before `round` multiplies by `10^scale`
again, exactly as on line 86 of `money.go`. -/
def New (amount : FP) (currencyCode : String) (mode : RoundingMode) : Except Err Money :=
  match Currencies (toUpperStr currencyCode) with
  | none => .error .invalidCurrency
  | some c =>
    .ok ⟨round (fmul amount (pow10F c.Scale)) c.Scale mode, c.Code, c.Scale,
      goInt64ofF (pow10F c.Scale)⟩

/-- `NewFromSmallestUnit(cents int64, currencyCode string)`: wraps the raw
integer; the stored code is the argument (not the registry's `Code`
field). -/
def NewFromSmallestUnit (cents : ℤ) (currencyCode : String) : Except Err Money :=
  match Currencies currencyCode with
  | none => .error .invalidCurrency
  | some c => .ok ⟨cents, currencyCode, c.Scale, goInt64ofF (pow10F c.Scale)⟩

/-- `Add`: currency guard, then `int64` sum (wrapping) rebuilt through
`NewFromSmallestUnit`. -/
def Add (m other : Money) : Except Err Money :=
  if m.currency ≠ other.currency then .error .cannotDealWithDifferentCurrencies
  else NewFromSmallestUnit (wrap64 (m.amount + other.amount)) m.currency

/-- `Subtract`: currency guard, then `int64` difference (wrapping). -/
def Subtract (m other : Money) : Except Err Money :=
  if m.currency ≠ other.currency then .error .cannotDealWithDifferentCurrencies
  else NewFromSmallestUnit (wrap64 (m.amount - other.amount)) m.currency

/-- `Multiply(factor float64, mode)`: finite factors pass the guard; the new
amount is `round(float64(m.amount)*factor, m.scale, mode)`. -/
def Multiply (m : Money) (factor : FP) (mode : RoundingMode) : Except Err Money :=
  NewFromSmallestUnit (round (fmul (i2f m.amount) factor) m.scale mode) m.currency

/-- A `float64` argument or intermediate value including the non-finite
values, used where division can produce them. -/
inductive FpClass where
  | fin (f : FP)
  | posInf
  | negInf
  | nan
deriving DecidableEq, Repr

/-- The IEEE-754 quotient `float64(a) / d` for a finite divisor `d`:
division by (positive) zero yields an infinity of the dividend's sign, or
NaN for `0/0`; otherwise the exact quotient rounded to nearest even. -/
def goDivF (a d : FP) : FpClass :=
  if d.m = 0 then
    if 0 < a.m then .posInf else if a.m < 0 then .negInf else .nan
  else
    let n := a.m * 2 ^ (a.e - d.e).toNat
    let den := d.m * 2 ^ (d.e - a.e).toNat
    if den < 0 then .fin (fpOfRat (-n) (-den).natAbs) else .fin (fpOfRat n den.natAbs)

/-- `math.Round` extended to the non-finite values (`Round(±Inf) = ±Inf`,
`Round(NaN) = NaN`). -/
def roundAwayFPC : FpClass → FpClass
  | .fin f => .fin ⟨roundAwayFP f, 0⟩
  | x => x

/-- Go `int64(x)` including non-finite `x`: every non-finite value converts
to `-2^63` on amd64 (implementation-dependent per the Go spec). -/
def goInt64ofFPC : FpClass → ℤ
  | .fin f => goInt64ofF f
  | _ => -(2 ^ 63)

/-- `Divide(divisor float64)`: the guard rejects exactly NaN and the two
infinities; any finite divisor — including zero — reaches the division
`float64(m.amount) / divisor`, whose rounded result is converted to
`int64` and rebuilt through `NewFromSmallestUnit`. -/
def Divide (m : Money) (divisor : FpClass) : Except Err Money :=
  match divisor with
  | .nan | .posInf | .negInf => .error .invalidDivisor
  | .fin d =>
    NewFromSmallestUnit (goInt64ofFPC (roundAwayFPC (goDivF (i2f m.amount) d))) m.currency

/-- `Split(n int)`: truncating division and modulus of the `int64` amount;
each element is built by a struct literal that omits the `divisor` field,
leaving it at the zero value `0`, exactly as lines 203–207 of `money.go`. -/
def Split (m : Money) (n : ℤ) : Except Err (List Money) :=
  if n ≤ 0 then .error .invalidSplitParts
  else
    let baseAmount := Int.tdiv m.amount n
    let remainder := Int.tmod m.amount n
    .ok ((List.range n.toNat).map fun i =>
      ⟨baseAmount + (if (i : ℤ) < remainder then 1 else 0), m.currency, m.scale, 0⟩)

/-! ### The parser (`money.go`, `Parse`) -/

/-- `unicode.IsSpace` on the characters `strings.TrimSpace` can see here
(ASCII whitespace plus NEL and NBSP). -/
def isSpaceGo (c : Char) : Bool :=
  c = ' ' || c = '\t' || c = '\n' || c = '\x0b' || c = '\x0c' || c = '\r' ||
    c = '\x85' || c = '\xa0'

/-- `strings.TrimSpace`. -/
def trimSpace (l : List Char) : List Char :=
  ((l.dropWhile isSpaceGo).reverse.dropWhile isSpaceGo).reverse

/-- Worker for `strings.ReplaceAll` with a non-empty pattern: `k` counts
pattern characters still to skip after a match. -/
def raGo (old new : List Char) : List Char → ℕ → List Char
  | [], _ => []
  | _ :: rest, k + 1 => raGo old new rest k
  | c :: rest, 0 =>
    if old.isPrefixOf (c :: rest) then new ++ raGo old new rest (old.length - 1)
    else c :: raGo old new rest 0

/-- `strings.ReplaceAll(s, old, new)`; an empty `old` inserts `new` before
every character and at the end, as in Go. -/
def replaceAll (s old new : List Char) : List Char :=
  match old with
  | [] => new ++ (s.map fun c => c :: new).flatten
  | _ :: _ => raGo old new s 0

/-- The compiled pattern `^-?\d*\.?\d+$` of `money.go`: optional leading
minus, digits, optional single dot followed by at least one digit; at least
one digit overall. -/
def numberRegexMatch (l : List Char) : Bool :=
  let body := match l with
    | '-' :: rest => rest
    | _ => l
  let ds := body.takeWhile Char.isDigit
  let rest := body.dropWhile Char.isDigit
  match rest with
  | [] => !ds.isEmpty
  | '.' :: rest2 => !rest2.isEmpty && rest2.all Char.isDigit
  | _ => false

/-- Numeric value of a digit run. -/
def digitsToNat (l : List Char) : ℕ := l.foldl (fun acc c => 10 * acc + (c.toNat - 48)) 0

/-- Exact rational value (numerator, positive denominator) of a string
accepted by `numberRegexMatch`; `strconv.ParseFloat` returns the binary64
value nearest to this rational. -/
def parseDecimal (l : List Char) : ℤ × ℕ :=
  let sb : Bool × List Char := match l with
    | '-' :: rest => (true, rest)
    | _ => (false, l)
  let ip := sb.2.takeWhile Char.isDigit
  let rest := sb.2.dropWhile Char.isDigit
  let fracDigits := match rest with
    | '.' :: rest2 => rest2
    | _ => []
  let den := 10 ^ fracDigits.length
  let num : ℤ := (digitsToNat ip * den + digitsToNat fracDigits : ℕ)
  (if sb.1 then -num else num, den)

/-- `Parse(s string, currency Currency, mode RoundingMode)`: trim, strip the
symbol and thousands separator, normalise the decimal separator, trim, check
the numeric pattern, convert with `strconv.ParseFloat` (correctly-rounded
binary64; its range-overflow error path cannot trigger on the inputs
considered) and delegate to `New`. -/
def Parse (s : String) (currency : Currency) (mode : RoundingMode) : Except Err Money :=
  let t1 := trimSpace s.data
  let t2 := replaceAll t1 currency.DefaultFormat.Symbol.data []
  let t3 := replaceAll t2 currency.DefaultFormat.ThousandsSep.data []
  let t4 := replaceAll t3 currency.DefaultFormat.DecimalSep.data [ '.']
  let t5 := trimSpace t4
  if numberRegexMatch t5 then
    let nd := parseDecimal t5
    New (fpOfRat nd.1 nd.2) currency.Code mode
  else .error .parseAmount

/-! ### The formatter (`money.go`, `Format`) -/

/-- `strconv.FormatInt(z, 10)`. -/
def intToDecimalChars (z : ℤ) : List Char :=
  if z < 0 then '-' :: Nat.toDigits 10 (-z).toNat else Nat.toDigits 10 z.toNat

/-- Chunks of three from the front (applied to the reversed integer part). -/
def chunk3 : List Char → List (List Char)
  | [] => []
  | [a] => [[a]]
  | [a, b] => [[a, b]]
  | a :: b :: c :: rest => [a, b, c] :: chunk3 rest

/-- The grouping loop of `Format`: split into groups of three digits from
the right, leftmost group possibly shorter, in left-to-right order. -/
def groupsRight (l : List Char) : List (List Char) :=
  ((chunk3 l.reverse).map List.reverse).reverse

/-- `Format(opts FormatOptions)`: sign extracted first (negation wraps in
`int64`), digits left-padded to more than `scale` characters, split at
`scale` digits from the right, optionally grouped by the thousands
separator, then assembled with symbol, spacing and currency code; the sign
always leads the overall result. -/
def Format (m : Money) (opts : FormatOptions) : String :=
  let sign : List Char := if m.amount < 0 then [ '-'] else []
  let absAmount : ℤ := if m.amount < 0 then wrap64 (-m.amount) else m.amount
  let value0 := intToDecimalChars absAmount
  let value := List.replicate (m.scale + 1 - value0.length) '0' ++ value0
  let decimalPos := value.length - m.scale
  let intPart0 := value.take decimalPos
  let fracPart := value.drop decimalPos
  let intPart :=
    if opts.ThousandsSep.data ≠ [] then
      List.intercalate opts.ThousandsSep.data (groupsRight intPart0)
    else intPart0
  let res := if 0 < m.scale then intPart ++ opts.DecimalSep.data ++ fracPart else intPart
  let space : List Char := if opts.SpaceBetween then [ ' '] else []
  let code : List Char := if opts.ShowCurrency then space ++ m.currency.data else []
  if opts.SymbolFirst then ⟨sign ++ opts.Symbol.data ++ space ++ res ++ code⟩
  else ⟨sign ++ res ++ space ++ opts.Symbol.data ++ code⟩

instance {ε α : Type} [DecidableEq ε] [DecidableEq α] : DecidableEq (Except ε α) := fun a b =>
  match a, b with
  | .ok x, .ok y =>
    if h : x = y then isTrue (by rw [h]) else isFalse (fun he => h (Except.ok.inj he))
  | .error x, .error y =>
    if h : x = y then isTrue (by rw [h]) else isFalse (fun he => h (Except.error.inj he))
  | .ok _, .error _ => isFalse (fun he => nomatch he)
  | .error _, .ok _ => isFalse (fun he => nomatch he)

/-! ### Auxiliary facts about the embedding -/

theorem bitLenF_zero (fuel : ℕ) : bitLenF fuel 0 = 0 := by
  cases fuel <;> simp [bitLenF]

theorem bitLenF_bounds (fuel : ℕ) :
    ∀ n : ℕ, n < 2 ^ fuel → 1 ≤ n → n < 2 ^ bitLenF fuel n ∧ 2 ^ bitLenF fuel n ≤ 2 * n := by
  induction fuel with
  | zero => intro n h h1; simp at h; omega
  | succ f ih =>
    intro n h h1
    have hn0 : n ≠ 0 := by omega
    rw [bitLenF, if_neg hn0]
    rcases Nat.eq_zero_or_pos (n / 2) with h2 | h2
    · have hn1 : n = 1 := by omega
      subst hn1
      simp [bitLenF_zero]
    · have hhalf : n / 2 < 2 ^ f := by
        have he : (2 : ℕ) ^ (f + 1) = 2 ^ f * 2 := pow_succ 2 f
        omega
      obtain ⟨hl, hr⟩ := ih (n / 2) hhalf h2
      have he : (2 : ℕ) ^ (bitLenF f (n / 2) + 1) = 2 ^ bitLenF f (n / 2) * 2 :=
        pow_succ 2 (bitLenF f (n / 2))
      omega

theorem bitLen_bounds (n : ℕ) (h1 : 1 ≤ n) :
    n < 2 ^ bitLen n ∧ 2 ^ bitLen n ≤ 2 * n := by
  have h2 : n < 2 ^ n := Nat.lt_two_pow n
  have h3 : (2 : ℕ) ^ n ≤ 2 ^ (n + 1) := Nat.pow_le_pow_right (by omega) (by omega)
  exact bitLenF_bounds (n + 1) n (by omega) h1

theorem rnePos_pos (a d : ℕ) (hd : 1 ≤ d) (h : d < 2 * a) : 1 ≤ rnePos a d := by
  rw [rnePos]
  rcases Nat.eq_zero_or_pos (a / d) with hq | hq
  · have hlt : a < d := by
      by_contra hge
      have hdiv : 1 ≤ a / d := (Nat.one_le_div_iff (by omega : 0 < d)).mpr (by omega)
      omega
    have hmod : a % d = a := Nat.mod_eq_of_lt hlt
    rw [hmod, hq]
    split_ifs <;> omega
  · split_ifs <;> omega

theorem ratExp_le (a d : ℕ) : ratExp a d ≤ (bitLen a : ℤ) - (bitLen d : ℤ) := by
  rw [ratExp]
  split_ifs <;> omega

theorem fpOfRatPos_m_def (a d : ℕ) :
    (fpOfRatPos a d).m =
      (rnePos (a * 2 ^ (52 - ratExp a d).toNat) (d * 2 ^ (-(52 - ratExp a d)).toNat) : ℤ) := rfl

theorem fpOfRatPos_one_pos (a : ℕ) (ha : 1 ≤ a) : 0 < (fpOfRatPos a 1).m := by
  obtain ⟨hu, hl⟩ := bitLen_bounds a ha
  have hb1 : bitLen 1 = 1 := by decide
  have hk : ratExp a 1 ≤ (bitLen a : ℤ) - 1 := by
    have := ratExp_le a 1
    omega
  rw [fpOfRatPos_m_def]
  have hpos : 1 ≤ rnePos (a * 2 ^ (52 - ratExp a 1).toNat) (1 * 2 ^ (-(52 - ratExp a 1)).toNat) := by
    apply rnePos_pos
    · have : 0 < (2 : ℕ) ^ (-(52 - ratExp a 1)).toNat := pow_pos (by omega) _
      omega
    · rcases le_or_lt (ratExp a 1) 52 with hle | hgt
      · have hz : (-(52 - ratExp a 1)).toNat = 0 := by omega
        have hp : 0 < (2 : ℕ) ^ (52 - ratExp a 1).toNat := pow_pos (by omega) _
        rw [hz]
        have : 1 ≤ a * 2 ^ (52 - ratExp a 1).toNat := Nat.one_le_iff_ne_zero.mpr (by
          exact Nat.mul_ne_zero (by omega) (by omega))
        omega
      · have h52 : (52 - ratExp a 1).toNat = 0 := by omega
        have hB : 1 ≤ bitLen a := by
          rcases Nat.eq_zero_or_pos (bitLen a) with h0 | h0
          · rw [h0] at hu; simp at hu; omega
          · exact h0
        have hlow : 2 ^ (bitLen a - 1) ≤ a := by
          have he : (2 : ℕ) ^ bitLen a = 2 ^ (bitLen a - 1) * 2 := by
            conv_lhs => rw [show bitLen a = (bitLen a - 1) + 1 by omega]
            exact pow_succ 2 (bitLen a - 1)
          omega
        have hexp : (-(52 - ratExp a 1)).toNat ≤ bitLen a - 1 := by omega
        have hmono : (2 : ℕ) ^ (-(52 - ratExp a 1)).toNat ≤ 2 ^ (bitLen a - 1) :=
          Nat.pow_le_pow_right (by omega) hexp
        rw [h52]
        simp only [pow_zero, mul_one]
        omega
  omega

theorem fpOfRat_of_pos (n : ℤ) (d : ℕ) (h : 0 < n) : fpOfRat n d = fpOfRatPos n.natAbs d := by
  rw [fpOfRat, if_neg (by omega), if_neg (by omega)]

theorem fpOfRat_m_of_neg (n : ℤ) (d : ℕ) (h : n < 0) :
    (fpOfRat n d).m = -(fpOfRatPos n.natAbs d).m := by
  rw [fpOfRat, if_neg (by omega), if_pos h]

theorem i2f_m_pos (a : ℤ) (h : 0 < a) : 0 < (i2f a).m := by
  rw [i2f, fpOfRat_of_pos a 1 h]
  exact fpOfRatPos_one_pos a.natAbs (by omega)

theorem i2f_m_neg (a : ℤ) (h : a < 0) : (i2f a).m < 0 := by
  rw [i2f, fpOfRat_m_of_neg a 1 h]
  have := fpOfRatPos_one_pos a.natAbs (by omega)
  omega

theorem wrap64_eq_self (z : ℤ) (h1 : -(2 ^ 63) ≤ z) (h2 : z < 2 ^ 63) : wrap64 z = z := by
  rw [wrap64]
  omega

/-! ### The claims -/

set_option maxRecDepth 1000000
set_option maxHeartbeats 1000000

/-- C1: the claim states that `fromDecimal(a, c, m)` returns the smallest-unit
amount `round(a, s, m)` — the rounding engine applied exactly once at the
currency's scale.  The code instead passes `amount * math.Pow10(scale)` into
`round`, which multiplies by `10^scale` again: `New(1.5, "USD", HalfUp)`
yields 15000 smallest units while `round(1.5, 2, HalfUp) = 150`, and
`New(123.45, "USD", HalfUp)` yields 1234500 where the package's own test
expects 12345.  (The divisor field does equal `10^scale`.) -/
theorem new_double_scaling_bug :
    New (fpOfRat 3 2) "USD" .RoundHalfUp = .ok ⟨15000, "USD", 2, 100⟩ ∧
    round (fpOfRat 3 2) 2 .RoundHalfUp = 150 ∧
    (15000 : ℤ) ≠ 150 ∧
    New (fpOfRat 12345 100) "USD" .RoundHalfUp = .ok ⟨1234500, "USD", 2, 100⟩ := by
  refine ⟨by decide, by decide, by decide, by decide⟩

/-- C2: the claim states that `split(parts)` preserves the exact sum for
positive, zero and negative amounts, the first `|remainder|` parts being
adjusted in the magnitude-consistent direction when the remainder is
negative.  The adjustment `amount++` is guarded by `i < remainder`, which no
index `i ≥ 0` satisfies for a negative remainder: splitting −100 into 3
parts yields `[-33, -33, -33]`, whose sum −99 differs from −100. -/
theorem split_negative_sum_bug :
    Split ⟨-100, "USD", 2, 100⟩ 3 =
      .ok [⟨-33, "USD", 2, 0⟩, ⟨-33, "USD", 2, 0⟩, ⟨-33, "USD", 2, 0⟩] ∧
    (([⟨-33, "USD", 2, 0⟩, ⟨-33, "USD", 2, 0⟩, ⟨-33, "USD", 2, 0⟩] : List Money).map
      Money.amount).sum = -99 ∧
    (-99 : ℤ) ≠ (⟨-100, "USD", 2, 100⟩ : Money).amount := by
  refine ⟨by decide, by decide, by decide⟩

/-- C3: the claim states the invariant `divisor = 10^scale` for every Money
produced by the public operations, including each element of `split`.  The
struct literal in `Split` omits the `divisor` field, so every split part has
`divisor = 0 ≠ 10^2`. -/
theorem split_divisor_invariant_bug :
    Split ⟨100, "USD", 2, 100⟩ 2 = .ok [⟨50, "USD", 2, 0⟩, ⟨50, "USD", 2, 0⟩] ∧
    (⟨50, "USD", 2, 0⟩ : Money).divisor ≠ 10 ^ (⟨50, "USD", 2, 0⟩ : Money).scale := by
  refine ⟨by decide, by decide⟩

/-- C4: the seven rounding literals hold under exact binary64 semantics,
including the floating-point artifact: the double nearest 1.1 times the
double 100 is `7740561859543041 * 2^(-46) = 110.00000000000001…`, which
`Up` (ceiling) rounds to 111. -/
theorem rounding_literals :
    round (fpOfRat 15 10) 2 .RoundHalfUp = 150 ∧
    round (fpOfRat 14 10) 2 .RoundHalfUp = 140 ∧
    round (fpOfRat 16 10) 2 .RoundHalfDown = 160 ∧
    round (fpOfRat 25 10) 2 .RoundHalfEven = 250 ∧
    round (fpOfRat 15 10) 2 .RoundHalfEven = 150 ∧
    round (fpOfRat 19 10) 2 .RoundDown = 190 ∧
    round (fpOfRat 11 10) 2 .RoundUp = 111 ∧
    fmul (fpOfRat 11 10) (pow10F 2) = ⟨7740561859543041, -46⟩ := by
  refine ⟨by decide, by decide, by decide, by decide, by decide, by decide, by decide, by decide⟩

/-- C5: the claim states that `HalfEven` resolves exact half ties to the even
neighbour for negative as well as positive scaled values.  At the tie
`scaled = -2.5` (input −2.5, scale 0) the truncation −2 is even, so the code
returns `floor(-2.5) = -3` — the odd neighbour — where the even neighbour is
−2; the positive tie 2.5 does go to the even neighbour 2. -/
theorem halfeven_negative_tie_bug :
    round (fpOfRat (-5) 2) 0 .RoundHalfEven = -3 ∧
    absEqHalf (fracFP (fmul (fpOfRat (-5) 2) (pow10F 0))) = true ∧
    Int.tmod (-3) 2 ≠ 0 ∧
    round (fpOfRat 5 2) 0 .RoundHalfEven = 2 := by
  refine ⟨by decide, by decide, by decide, by decide⟩

/-- C6 counterexample: the claim as stated promises the exact sum of the raw
integer amounts, but Go `int64` addition wraps: adding one smallest unit to
`2^63 - 1` yields `-2^63`, not `2^63`. -/
theorem add_overflow_counterexample :
    NewFromSmallestUnit (2 ^ 63 - 1) "USD" = .ok ⟨2 ^ 63 - 1, "USD", 2, 100⟩ ∧
    NewFromSmallestUnit 1 "USD" = .ok ⟨1, "USD", 2, 100⟩ ∧
    Add ⟨2 ^ 63 - 1, "USD", 2, 100⟩ ⟨1, "USD", 2, 100⟩ = .ok ⟨-(2 ^ 63), "USD", 2, 100⟩ ∧
    (-(2 ^ 63) : ℤ) ≠ (2 ^ 63 - 1) + 1 := by
  refine ⟨by decide, by decide, by decide, by decide⟩

/-- C6 (amended): for Moneys whose (shared) currency is registered, `Add` and
`Subtract` fail with `CurrencyMismatch` exactly when the currency codes
differ; when the codes agree each returns a new Money carrying the shared
code and scale whose amount is the 64-bit two's-complement wrap of the exact
sum (resp. difference), which equals the exact value whenever it lies in
`int64` range. -/
theorem add_subtract_spec (a b : Money) (c : Currency)
    (hc : Currencies a.currency = some c) (hs : a.scale = c.Scale) :
    ((Add a b = .error .cannotDealWithDifferentCurrencies) ↔ a.currency ≠ b.currency) ∧
    ((Subtract a b = .error .cannotDealWithDifferentCurrencies) ↔ a.currency ≠ b.currency) ∧
    (a.currency = b.currency →
      Add a b = .ok ⟨wrap64 (a.amount + b.amount), a.currency, a.scale,
        goInt64ofF (pow10F c.Scale)⟩ ∧
      Subtract a b = .ok ⟨wrap64 (a.amount - b.amount), a.currency, a.scale,
        goInt64ofF (pow10F c.Scale)⟩) ∧
    (∀ z : ℤ, -(2 ^ 63) ≤ z → z < 2 ^ 63 → wrap64 z = z) := by
  refine ⟨?_, ?_, ?_, fun z h1 h2 => wrap64_eq_self z h1 h2⟩
  · constructor
    · intro h
      by_cases hcc : a.currency = b.currency
      · rw [Add, if_neg (by simp [hcc]), NewFromSmallestUnit, hc] at h
        exact absurd h (by simp)
      · exact hcc
    · intro hne
      rw [Add, if_pos hne]
  · constructor
    · intro h
      by_cases hcc : a.currency = b.currency
      · rw [Subtract, if_neg (by simp [hcc]), NewFromSmallestUnit, hc] at h
        exact absurd h (by simp)
      · exact hcc
    · intro hne
      rw [Subtract, if_pos hne]
  · intro hcc
    constructor
    · rw [Add, if_neg (by simp [hcc]), NewFromSmallestUnit, hc, hs]
    · rw [Subtract, if_neg (by simp [hcc]), NewFromSmallestUnit, hc, hs]

/-- C6 witness: the amended statement applied to two concrete USD Moneys. -/
theorem add_subtract_spec_witness :
    Add ⟨100, "USD", 2, 100⟩ ⟨200, "USD", 2, 100⟩ = .ok ⟨300, "USD", 2, 100⟩ ∧
    Subtract ⟨100, "USD", 2, 100⟩ ⟨200, "USD", 2, 100⟩ = .ok ⟨-100, "USD", 2, 100⟩ := by
  have h := add_subtract_spec ⟨100, "USD", 2, 100⟩ ⟨200, "USD", 2, 100⟩ usdCurrency rfl rfl
  obtain ⟨hA, hS⟩ := h.2.2.1 rfl
  exact ⟨hA.trans (by decide), hS.trans (by decide)⟩

/-- C7: the claim states that parsing `$1,234.56` with USD's default format
yields 123456 smallest units.  Normalisation and the grammar check behave as
claimed (`invalid` fails with `ParseError`), but the delegation to the
double-scaling `New` turns the parsed 1234.56 into 12345600 smallest units,
where the package's own test expects 123456. -/
theorem parse_literal_bug :
    Parse "$1,234.56" usdCurrency .RoundHalfUp = .ok ⟨12345600, "USD", 2, 100⟩ ∧
    (12345600 : ℤ) ≠ 123456 ∧
    Parse "invalid" usdCurrency .RoundHalfUp = .error .parseAmount := by
  refine ⟨by decide, by decide, by decide⟩

/-- C8: formatting 123456 smallest units of USD at scale 2 with symbol-first
options yields `"$ 1,234.56 USD"` and −123456 yields `"-$ 1,234.56 USD"`;
for every negative amount in symbol-first mode the minus sign precedes the
symbol in the overall result. -/
theorem format_literals_and_sign :
    Format ⟨123456, "USD", 2, 0⟩ ⟨"$", ".", ",", true, true, true⟩ = "$ 1,234.56 USD" ∧
    Format ⟨-123456, "USD", 2, 0⟩ ⟨"$", ".", ",", true, true, true⟩ = "-$ 1,234.56 USD" ∧
    ∀ (m : Money) (opts : FormatOptions), m.amount < 0 → opts.SymbolFirst = true →
      ∃ rest : List Char, (Format m opts).data = '-' :: (opts.Symbol.data ++ rest) := by
  refine ⟨by decide, by decide, ?_⟩
  intro m opts h hsf
  simp only [Format, if_pos h, hsf, if_true, List.cons_append, List.nil_append,
    List.append_assoc]
  exact ⟨_, rfl⟩

/-- C8 witness: the sign-precedes-symbol clause at a concrete negative
amount. -/
theorem format_literals_and_sign_witness :
    ∃ rest : List Char,
      (Format ⟨-5, "USD", 2, 0⟩ ⟨"$", ".", ",", true, true, true⟩).data =
        '-' :: (("$" : String).data ++ rest) := by
  exact format_literals_and_sign.2.2 ⟨-5, "USD", 2, 0⟩ ⟨"$", ".", ",", true, true, true⟩
    (by decide) rfl

/-- C9: the claim states that `fromSmallestUnit(m.smallestUnit(),
m.currencyCode())` reproduces a Money equal to `m` in all fields for every
Money produced by the public operations, including split elements.  A split
element carries `divisor = 0` (the omitted field), while the rebuilt Money
carries `divisor = 100`, so the round-trip is not field-equal on split
elements. -/
theorem split_roundtrip_bug :
    Split ⟨100, "USD", 2, 100⟩ 2 = .ok [⟨50, "USD", 2, 0⟩, ⟨50, "USD", 2, 0⟩] ∧
    NewFromSmallestUnit (⟨50, "USD", 2, 0⟩ : Money).amount
      (⟨50, "USD", 2, 0⟩ : Money).currency = .ok ⟨50, "USD", 2, 100⟩ ∧
    (⟨50, "USD", 2, 100⟩ : Money) ≠ ⟨50, "USD", 2, 0⟩ := by
  refine ⟨by decide, by decide, by decide⟩

/-- C10: for every Money with a registered currency, `Divide(0)` passes the
guard (which rejects only NaN and the infinities, each returning
`InvalidDivisor`) and returns a Money whose amount is the `int64` conversion
of the non-finite quotient `float64(amount) / 0` — positive infinity for a
positive amount, negative infinity for a negative one, NaN for zero —
namely `-2^63` on amd64. -/
theorem divide_by_zero_returns_money (m : Money) (c : Currency)
    (hc : Currencies m.currency = some c) :
    Divide m (.fin ⟨0, 0⟩) = .ok ⟨-(2 ^ 63), m.currency, c.Scale, goInt64ofF (pow10F c.Scale)⟩ ∧
    (0 < m.amount → goDivF (i2f m.amount) ⟨0, 0⟩ = .posInf) ∧
    (m.amount < 0 → goDivF (i2f m.amount) ⟨0, 0⟩ = .negInf) ∧
    (m.amount = 0 → goDivF (i2f m.amount) ⟨0, 0⟩ = .nan) ∧
    Divide m .nan = .error .invalidDivisor ∧
    Divide m .posInf = .error .invalidDivisor ∧
    Divide m .negInf = .error .invalidDivisor := by
  refine ⟨?_, ?_, ?_, ?_, rfl, rfl, rfl⟩
  · have hnf : goInt64ofFPC (roundAwayFPC (goDivF (i2f m.amount) ⟨0, 0⟩)) = -(2 ^ 63) := by
      rw [goDivF, if_pos rfl]
      split_ifs <;> rfl
    show NewFromSmallestUnit (goInt64ofFPC (roundAwayFPC (goDivF (i2f m.amount) ⟨0, 0⟩)))
      m.currency = _
    rw [hnf, NewFromSmallestUnit, hc]
  · intro h
    rw [goDivF, if_pos rfl, if_pos (i2f_m_pos m.amount h)]
  · intro h
    have h1 := i2f_m_neg m.amount h
    rw [goDivF, if_pos rfl, if_neg (by omega), if_pos h1]
  · intro h
    rw [h]
    decide

/-- C10 witness: dividing a concrete USD Money by the finite divisor zero. -/
theorem divide_by_zero_returns_money_witness :
    Divide ⟨100, "USD", 2, 100⟩ (.fin ⟨0, 0⟩) = .ok ⟨-(2 ^ 63), "USD", 2, 100⟩ := by
  have h := divide_by_zero_returns_money ⟨100, "USD", 2, 100⟩ usdCurrency rfl
  exact h.1.trans (by decide)

end money
